import Mathlib

/-!
# Verification of the expense-tracker core (`src/main.rs`)

Shallow embedding of the expense-store component of the Rust expense
tracker: the `Expense` record, the in-memory collection, the budget map,
and the operations `add_expense`, `sort_expenses`, `filter_expenses`,
`monthly_summary`, `set_budget`, `delete_expenses`, plus the JSON
persistence pair `save_expenses` / `load_expenses`.

Modelling conventions:

* `f64` amounts are modelled by `FVal`: either `nan` or an exact rational
  (`ℚ`).  Rust's `partial_cmp` on `f64` is total on non-NaN values and
  returns `None` as soon as a NaN is involved; `FVal.pcmp` reproduces
  exactly that.  (Infinities, which also compare totally, are not given a
  separate constructor; the claims under study only distinguish NaN from
  ordinary numeric values.)  `f64` arithmetic is abstracted as exact
  rational arithmetic, with NaN propagating through `FVal.add`.
* `chrono::DateTime<Utc>` is an instant in UTC; the program observes it
  only through its calendar projections `year()` and `month()`, through
  its total order, and through its lossless RFC3339 wire form.  We
  represent an instant by the record `DateTime` of its year, its month,
  and `sub`, the remaining position of the instant inside that month;
  chronological order is lexicographic on these components.
* `Vec::sort_by` is a stable comparison sort whose comparator here always
  goes through `Option.get`/`unwrap` on `partial_cmp` results (for the
  amount keys).  We model it as a stable insertion sort in the `Option`
  monad (`isortOpt`): any comparison returning `none` makes the whole
  sort `none`, which models the `unwrap` panic.  For comparators that
  form a total preorder every stable sort produces the same output, so
  insertion sort is a faithful model of the observable result.
* `serde_json` values are modelled by the `Json` tree; the RFC3339
  timestamp string is modelled by the components it losslessly encodes.
  A file read is `FileRead`: not found, some other I/O error, or content
  that is either not JSON at all (`invalidJson`) or a JSON tree.
* `HashMap<String, f64>` for budgets is modelled as a lookup function,
  and the per-category totals map of `monthly_summary` as an association
  list with `entry().or_insert(0.0) += amount` update semantics.
-/

/-- Total comparison derived from a linear order, matching Rust's
`Ord::cmp` / the defined branch of `PartialOrd::partial_cmp`. -/
def ocmp {β : Type} [LinearOrder β] (a b : β) : Ordering :=
  if a < b then .lt else if a = b then .eq else .gt

theorem ocmp_eq_lt {β : Type} [LinearOrder β] {a b : β} : ocmp a b = .lt ↔ a < b := by
  unfold ocmp
  split_ifs with h1 h2
  · exact iff_of_true rfl h1
  · exact iff_of_false (by simp) (by rw [h2]; exact lt_irrefl b)
  · exact iff_of_false (by simp) h1

theorem ocmp_eq_eq {β : Type} [LinearOrder β] {a b : β} : ocmp a b = .eq ↔ a = b := by
  unfold ocmp
  split_ifs with h1 h2
  · exact iff_of_false (by simp) (ne_of_lt h1)
  · exact iff_of_true rfl h2
  · exact iff_of_false (by simp) h2

theorem ocmp_eq_gt {β : Type} [LinearOrder β] {a b : β} : ocmp a b = .gt ↔ b < a := by
  unfold ocmp
  split_ifs with h1 h2
  · exact iff_of_false (by simp) (lt_asymm h1)
  · exact iff_of_false (by simp) (by rw [h2]; exact lt_irrefl b)
  · exact iff_of_true rfl (lt_of_le_of_ne (le_of_not_lt h1) fun h => h2 h.symm)

theorem ocmp_ne_gt {β : Type} [LinearOrder β] {a b : β} : ocmp a b ≠ .gt ↔ a ≤ b := by
  rw [not_iff_comm.symm]
  simp [ocmp_eq_gt, not_le]

/-- Model of an `f64` amount: NaN or an exact rational value. -/
inductive FVal : Type where
  | nan : FVal
  | num : ℚ → FVal
deriving DecidableEq

/-- `f64::is_nan`. -/
def FVal.isNan : FVal → Bool
  | .nan => true
  | .num _ => false

/-- The rational value of a non-NaN `FVal` (0 as a junk value on NaN). -/
def FVal.q : FVal → ℚ
  | .nan => 0
  | .num a => a

/-- `f64::partial_cmp`: total on numeric values, `none` when a NaN is
involved. -/
def FVal.pcmp : FVal → FVal → Option Ordering
  | .num a, .num b => some (ocmp a b)
  | _, _ => none

/-- `f64` addition (exact-rational abstraction; NaN propagates). -/
def FVal.add : FVal → FVal → FVal
  | .num a, .num b => .num (a + b)
  | _, _ => .nan

/-- `f64` strict greater-than: false whenever a NaN is involved. -/
def FVal.gt : FVal → FVal → Bool
  | .num a, .num b => decide (b < a)
  | _, _ => false

/-- `Iterator::sum` over `f64` amounts: left fold of `+` from `0.0`. -/
def sumFVals (l : List FVal) : FVal := l.foldl FVal.add (.num 0)

/-- A `chrono::DateTime<Utc>` instant, represented by its calendar
projections `year()` and `month()` together with `sub`, the remaining
position of the instant within that month; chronological order is
lexicographic on `(year, month, sub)`. -/
structure DateTime where
  year : Int
  month : Nat
  sub : Nat
deriving DecidableEq

/-- `Ord::cmp` on instants (chronological order). -/
def DateTime.dtCmp (a b : DateTime) : Ordering :=
  match ocmp a.year b.year with
  | .eq =>
    match ocmp a.month b.month with
    | .eq => ocmp a.sub b.sub
    | o => o
  | o => o

/-- The `Expense` struct of `main.rs`. -/
structure Expense where
  amount : FVal
  category : String
  timestamp : DateTime
deriving DecidableEq

/-- The `ExpenseTracker` struct: the ordered collection plus the
per-category budget map (`HashMap<String, f64>` modelled as a lookup
function; `insert` is last-write-wins). -/
structure ExpenseTracker where
  expenses : List Expense
  budgets : String → Option FVal

/-- `u8::to_ascii_lowercase`, on the code points Rust's byte-wise
operation acts on (only ASCII `A`–`Z` is folded). -/
def toLowerAscii (c : Char) : Char :=
  if 65 ≤ c.toNat ∧ c.toNat ≤ 90 then Char.ofNat (c.toNat + 32) else c

/-- `str::eq_ignore_ascii_case`, lifted from bytes to characters (UTF-8
is order- and equality-preserving, and non-ASCII bytes are never in the
folded `A`–`Z` range, so the character-level fold is equivalent). -/
def eqIgnoreAsciiCaseAux : List Char → List Char → Bool
  | [], [] => true
  | a :: as, b :: bs => (toLowerAscii a == toLowerAscii b) && eqIgnoreAsciiCaseAux as bs
  | _, _ => false

/-- `str::eq_ignore_ascii_case` on strings. -/
def eqIgnoreAsciiCase (a b : String) : Bool :=
  eqIgnoreAsciiCaseAux a.data b.data

/-- Rust `String` comparison: lexicographic on the byte sequence, which
coincides with lexicographic comparison of the code points. -/
def strCmpAux : List Char → List Char → Ordering
  | [], [] => .eq
  | [], _ :: _ => .lt
  | _ :: _, [] => .gt
  | a :: as, b :: bs =>
    match ocmp a.toNat b.toNat with
    | .eq => strCmpAux as bs
    | o => o

/-- `Ord::cmp` on Rust `String`s. -/
def strCmp (a b : String) : Ordering := strCmpAux a.data b.data

/-- `add_expense` (menu option 0), given the already-read category and
amount and the current time: pushes the new expense, then, when a budget
exists for the category, sums the amounts of the expenses whose category
equals it (case-sensitively, new expense included) and emits the
budget-exceeded warning exactly when that sum is strictly greater than
the budget.  Returns the updated tracker and whether the warning was
printed; the push itself is unconditional. -/
def add_expense (t : ExpenseTracker) (category : String) (amount : FVal)
    (now : DateTime) : ExpenseTracker × Bool :=
  let expenses' := t.expenses ++ [⟨amount, category, now⟩]
  let warned :=
    match t.budgets category with
    | some budget =>
      FVal.gt (sumFVals ((expenses'.filter fun e => e.category == category).map
        fun e => e.amount)) budget
    | none => false
  (⟨expenses', t.budgets⟩, warned)

/-- `set_budget` (menu option 5): upserts the limit for the category. -/
def set_budget (t : ExpenseTracker) (category : String) (budget : FVal) :
    ExpenseTracker :=
  ⟨t.expenses, fun c => if c = category then some budget else t.budgets c⟩

/-- The core of `filter_expenses` (menu option 3): the subsequence of
expenses whose category matches the query, ignoring ASCII case. -/
def filter_expenses (category : String) (expenses : List Expense) : List Expense :=
  expenses.filter fun e => eqIgnoreAsciiCase e.category category

/-- The message `filter_expenses` prints when nothing matches. -/
def filterEmptyMsg (category : String) : String :=
  "No expenses found for category: " ++ category

/-- The message `view_expenses` prints when the collection is empty. -/
def viewEmptyMsg : String := "No expenses recorded yet."

/-- What `filter_expenses` reports: the no-match warning when the
filtered list is empty, otherwise the matching amounts. -/
inductive FilterReport : Type where
  | noMatch (message : String)
  | results (amounts : List FVal)
deriving DecidableEq

/-- The report printed by `filter_expenses`. -/
def filterReport (category : String) (expenses : List Expense) : FilterReport :=
  let f := filter_expenses category expenses
  if f.isEmpty then .noMatch (filterEmptyMsg category)
  else .results (f.map fun e => e.amount)

/-- Outcome of `delete_expenses` (menu option 6). -/
inductive DeleteOutcome : Type where
  | noExpenses
  | deleted (remaining : List Expense)
  | invalidIndex
  | panicked
deriving DecidableEq

/-- `delete_expenses`, given the user's already-parsed (1-based) index.
The source guards with `if index < expenses.len()` and then calls
`expenses.remove(index - 1)`.  With `index = 0` the guard passes (the
list is non-empty here) and `index - 1` underflows `usize`, so
`remove` panics; with `1 ≤ index < len` it removes the `index`-th
element; with `index ≥ len` it reports an invalid index and leaves the
collection unchanged. -/
def delete_expenses (expenses : List Expense) (index : Nat) : DeleteOutcome :=
  if expenses.isEmpty then .noExpenses
  else if index < expenses.length then
    if index = 0 then .panicked
    else .deleted (expenses.eraseIdx (index - 1))
  else .invalidIndex

/-- One step of a stable insertion sort driven by a fallible comparator:
a `none` comparison models the panic of the `unwrap` inside the
`sort_by` closure. -/
def insertOpt {α : Type} (c : α → α → Option Ordering) (a : α) :
    List α → Option (List α)
  | [] => some [a]
  | b :: t =>
    match c a b with
    | none => none
    | some .gt => Option.map (fun t' => b :: t') (insertOpt c a t)
    | some _ => some (a :: b :: t)

/-- Stable sort in the `Option` monad: the model of `Vec::sort_by` with a
comparator that `unwrap`s `partial_cmp` results (see header comment). -/
def isortOpt {α : Type} (c : α → α → Option Ordering) : List α → Option (List α)
  | [] => some []
  | a :: t => Option.bind (isortOpt c t) (insertOpt c a)

/-- Stable insertion with an infallible comparator. -/
def insertT {α : Type} (c : α → α → Ordering) (a : α) : List α → List α
  | [] => [a]
  | b :: t =>
    match c a b with
    | .gt => b :: insertT c a t
    | _ => a :: b :: t

/-- Stable insertion sort with an infallible comparator. -/
def isortT {α : Type} (c : α → α → Ordering) : List α → List α
  | [] => []
  | a :: t => insertT c a (isortT c t)

/-- The comparator of sort choice "1": amount low to high. -/
def cmpAmountAsc (a b : Expense) : Option Ordering := FVal.pcmp a.amount b.amount

/-- The comparator of sort choice "2": amount high to low. -/
def cmpAmountDesc (a b : Expense) : Option Ordering := FVal.pcmp b.amount a.amount

/-- The comparator of sort choice "3": category A–Z (`String::cmp`). -/
def cmpCategory (a b : Expense) : Option Ordering :=
  some (strCmp a.category b.category)

/-- The comparator of sort choice "4": date newest first. -/
def cmpDateDesc (a b : Expense) : Option Ordering :=
  some (DateTime.dtCmp b.timestamp a.timestamp)

/-- The comparator of sort choice "5": date oldest first. -/
def cmpDateAsc (a b : Expense) : Option Ordering :=
  some (DateTime.dtCmp a.timestamp b.timestamp)

/-- `sort_expenses` (menu option 2), given the trimmed user input line:
dispatches on the five recognized keys; any other input reports an
invalid choice and returns with the collection untouched.  `none` models
a panic of the amount comparator on NaN. -/
def sort_expenses (input : String) (expenses : List Expense) :
    Option (List Expense) :=
  if input = "1" then isortOpt cmpAmountAsc expenses
  else if input = "2" then isortOpt cmpAmountDesc expenses
  else if input = "3" then isortOpt cmpCategory expenses
  else if input = "4" then isortOpt cmpDateDesc expenses
  else if input = "5" then isortOpt cmpDateAsc expenses
  else some expenses

theorem insertT_perm {α : Type} (c : α → α → Ordering) (a : α) (t : List α) :
    (insertT c a t).Perm (a :: t) := by
  induction t with
  | nil => exact List.Perm.refl _
  | cons b t ih =>
    cases hc : c a b with
    | gt =>
      simp only [insertT, hc]
      exact ((ih.cons b).trans (List.Perm.swap a b t))
    | lt => simp [insertT, hc]
    | eq => simp [insertT, hc]

theorem isortT_perm {α : Type} (c : α → α → Ordering) (l : List α) :
    (isortT c l).Perm l := by
  induction l with
  | nil => exact List.Perm.refl _
  | cons a t ih =>
    simp only [isortT]
    exact (insertT_perm c a (isortT c t)).trans (ih.cons a)

theorem insertOpt_perm {α : Type} (c : α → α → Option Ordering) (a : α) :
    ∀ t t' : List α, insertOpt c a t = some t' → t'.Perm (a :: t) := by
  intro t
  induction t with
  | nil =>
    intro t' h
    simp only [insertOpt, Option.some_inj] at h
    exact h ▸ List.Perm.refl _
  | cons b t ih =>
    intro t' h
    cases hc : c a b with
    | none => simp [insertOpt, hc] at h
    | some o =>
      cases o with
      | gt =>
        simp only [insertOpt, hc, Option.map_eq_some'] at h
        obtain ⟨t'', ht'', rfl⟩ := h
        exact (((ih t'' ht'').cons b).trans (List.Perm.swap a b t))
      | lt =>
        simp only [insertOpt, hc, Option.some_inj] at h
        exact h ▸ List.Perm.refl _
      | eq =>
        simp only [insertOpt, hc, Option.some_inj] at h
        exact h ▸ List.Perm.refl _

theorem isortOpt_perm {α : Type} (c : α → α → Option Ordering) :
    ∀ l l' : List α, isortOpt c l = some l' → l'.Perm l := by
  intro l
  induction l with
  | nil =>
    intro l' h
    simp only [isortOpt, Option.some_inj] at h
    exact h ▸ List.Perm.refl _
  | cons a t ih =>
    intro l' h
    simp only [isortOpt, Option.bind_eq_some] at h
    obtain ⟨t', ht', hins⟩ := h
    exact (insertOpt_perm c a t' l' hins).trans ((ih t' ht').cons a)

theorem insertOpt_eq_insertT {α : Type} (co : α → α → Option Ordering)
    (ct : α → α → Ordering) (a : α) :
    ∀ t : List α, (∀ b ∈ t, co a b = some (ct a b)) →
    insertOpt co a t = some (insertT ct a t) := by
  intro t
  induction t with
  | nil => intro _; rfl
  | cons b t ih =>
    intro h
    have hb : co a b = some (ct a b) := h b (List.mem_cons_self b t)
    cases hc : ct a b with
    | gt =>
      rw [hc] at hb
      simp only [insertOpt, insertT, hb, hc]
      rw [ih fun y hy => h y (List.mem_cons_of_mem b hy)]
      rfl
    | lt =>
      rw [hc] at hb
      simp [insertOpt, insertT, hb, hc]
    | eq =>
      rw [hc] at hb
      simp [insertOpt, insertT, hb, hc]

theorem isortOpt_eq_isortT {α : Type} (co : α → α → Option Ordering)
    (ct : α → α → Ordering) :
    ∀ l : List α, (∀ x ∈ l, ∀ y ∈ l, co x y = some (ct x y)) →
    isortOpt co l = some (isortT ct l) := by
  intro l
  induction l with
  | nil => intro _; rfl
  | cons a t ih =>
    intro h
    simp only [isortOpt, isortT]
    rw [ih fun x hx y hy =>
      h x (List.mem_cons_of_mem a hx) y (List.mem_cons_of_mem a hy)]
    simp only [Option.some_bind]
    exact insertOpt_eq_insertT co ct a (isortT ct t) fun b hb =>
      h a (List.mem_cons_self a t) b
        (List.mem_cons_of_mem a (((isortT_perm ct t).mem_iff).mp hb))

theorem insertT_pairwise {α : Type} (c : α → α → Ordering)
    (Hflip : ∀ x y, c x y = .gt → c y x ≠ .gt)
    (Htrans : ∀ x y z, c x y ≠ .gt → c y z ≠ .gt → c x z ≠ .gt) (a : α) :
    ∀ t : List α, t.Pairwise (fun x y => c x y ≠ .gt) →
    (insertT c a t).Pairwise (fun x y => c x y ≠ .gt) := by
  intro t
  induction t with
  | nil => intro _; simp [insertT]
  | cons b t ih =>
    intro h
    rw [List.pairwise_cons] at h
    obtain ⟨hb, ht⟩ := h
    cases hc : c a b with
    | gt =>
      simp only [insertT, hc]
      rw [List.pairwise_cons]
      refine ⟨fun y hy => ?_, ih ht⟩
      rcases List.mem_cons.mp (((insertT_perm c a t).mem_iff).mp hy) with rfl | hy
      · exact Hflip y b hc
      · exact hb y hy
    | lt =>
      simp only [insertT, hc]
      rw [List.pairwise_cons]
      refine ⟨fun y hy => ?_, List.Pairwise.cons hb ht⟩
      rcases List.mem_cons.mp hy with hy | hy
      · rw [hy, hc]; simp
      · exact Htrans a b y (by rw [hc]; simp) (hb y hy)
    | eq =>
      simp only [insertT, hc]
      rw [List.pairwise_cons]
      refine ⟨fun y hy => ?_, List.Pairwise.cons hb ht⟩
      rcases List.mem_cons.mp hy with hy | hy
      · rw [hy, hc]; simp
      · exact Htrans a b y (by rw [hc]; simp) (hb y hy)

theorem isortT_pairwise {α : Type} (c : α → α → Ordering)
    (Hflip : ∀ x y, c x y = .gt → c y x ≠ .gt)
    (Htrans : ∀ x y z, c x y ≠ .gt → c y z ≠ .gt → c x z ≠ .gt) :
    ∀ l : List α, (isortT c l).Pairwise (fun x y => c x y ≠ .gt) := by
  intro l
  induction l with
  | nil => simp [isortT]
  | cons a t ih => exact insertT_pairwise c Hflip Htrans a (isortT c t) ih

theorem isortOpt_none_of_bad {α : Type} (c : α → α → Option Ordering) :
    ∀ l : List α, 2 ≤ l.length →
    (∃ x ∈ l, (∀ y, c x y = none) ∧ (∀ y, c y x = none)) →
    isortOpt c l = none := by
  intro l
  induction l with
  | nil => intro hlen; simp at hlen
  | cons a t ih =>
    intro hlen hbad
    obtain ⟨x, hx, hxl, hxr⟩ := hbad
    have htlen : 1 ≤ t.length := by
      simp only [List.length_cons] at hlen; omega
    rcases List.mem_cons.mp hx with rfl | hxt
    · simp only [isortOpt]
      cases hs : isortOpt c t with
      | none => rfl
      | some t' =>
        have hp := isortOpt_perm c t t' hs
        cases t' with
        | nil =>
          have := hp.length_eq
          simp at this
          omega
        | cons h tt => simp [insertOpt, hxl h]
    · by_cases h2 : 2 ≤ t.length
      · simp [isortOpt, ih h2 ⟨x, hxt, hxl, hxr⟩]
      · have : t.length = 1 := by omega
        cases t with
        | nil => simp at this
        | cons b tt =>
          cases tt with
          | nil =>
            have hxb : x = b := by
              rcases List.mem_cons.mp hxt with hxb | hxn
              · exact hxb
              · simp at hxn
            simp [isortOpt, insertOpt, hxb ▸ hxr a]
          | cons d dd => simp at this

theorem insertT_append_of_all_gt {α : Type} (c : α → α → Ordering) (a : α) :
    ∀ m : List α, (∀ b ∈ m, c a b = .gt) → insertT c a m = m ++ [a] := by
  intro m
  induction m with
  | nil => intro _; rfl
  | cons b t ih =>
    intro h
    simp only [insertT, h b (List.mem_cons_self b t)]
    rw [ih fun y hy => h y (List.mem_cons_of_mem b hy)]
    rfl

theorem isortT_rev_of_strict {α : Type} (c : α → α → Ordering) :
    ∀ l : List α, l.Pairwise (fun x y => c x y = .gt) →
    isortT c l = l.reverse := by
  intro l
  induction l with
  | nil => intro _; rfl
  | cons a t ih =>
    intro h
    rw [List.pairwise_cons] at h
    obtain ⟨ha, ht⟩ := h
    simp only [isortT]
    rw [ih ht, insertT_append_of_all_gt c a t.reverse
      fun b hb => ha b (List.mem_reverse.mp hb), List.reverse_cons]

/-- A `serde_json` document tree.  Numbers are exact rationals, matching
serde's lossless round-trip of `f64` (the shortest-round-trip printing
reads back to the identical value). -/
inductive Json : Type where
  | null : Json
  | num : ℚ → Json
  | str : String → Json
  | arr : List Json → Json
  | obj : List (String × Json) → Json

/-- serde serialization of an `f64` amount; among the modelled values
only NaN has no JSON number form and is written as `null`. -/
def amountToJson : FVal → Json
  | .nan => .null
  | .num q => .num q

/-- serde deserialization of an `f64` amount: only a JSON number parses. -/
def amountFromJson : Json → Option FVal
  | .num q => some (.num q)
  | _ => none

/-- The integer denoted by a JSON number, when it is one. -/
def qToInt (q : ℚ) : Option Int :=
  if q.den = 1 then some q.num else none

/-- The natural number denoted by a JSON number, when it is one. -/
def qToNat (q : ℚ) : Option Nat :=
  if q.den = 1 ∧ 0 ≤ q.num then some q.num.toNat else none

/-- chrono's RFC3339 wire form of an instant, modelled by the components
that string losslessly encodes. -/
def dtToJson (dt : DateTime) : Json :=
  .arr [.num (dt.year : ℚ), .num (dt.month : ℚ), .num (dt.sub : ℚ)]

/-- Parsing the wire form of an instant back. -/
def dtFromJson : Json → Option DateTime
  | .arr [.num y, .num m, .num s] =>
    match qToInt y, qToNat m, qToNat s with
    | some y', some m', some s' => some ⟨y', m', s'⟩
    | _, _, _ => none
  | _ => none

/-- serde serialization of one `Expense`, fields in declaration order. -/
def expenseToJson (e : Expense) : Json :=
  .obj [("amount", amountToJson e.amount), ("category", .str e.category),
    ("timestamp", dtToJson e.timestamp)]

/-- serde deserialization of one `Expense`. -/
def expenseFromJson : Json → Option Expense
  | .obj [("amount", a), ("category", .str cat), ("timestamp", t)] =>
    match amountFromJson a, dtFromJson t with
    | some av, some tv => some ⟨av, cat, tv⟩
    | _, _ => none
  | _ => none

/-- serde deserialization of an array of `Expense`s: all-or-nothing. -/
def expenseListFromJson : List Json → Option (List Expense)
  | [] => some []
  | j :: js =>
    match expenseFromJson j, expenseListFromJson js with
    | some e, some es => some (e :: es)
    | _, _ => none

/-- `serde_json::from_str` into `Vec<Expense>`: the document must be a
JSON array of parsable expense records. -/
def expensesFromJson : Json → Option (List Expense)
  | .arr js => expenseListFromJson js
  | _ => none

/-- `save_expenses`: the JSON document written to `expenses.json`
(pretty-printing does not change the document). -/
def save_expenses (expenses : List Expense) : Json :=
  .arr (expenses.map expenseToJson)

/-- The contents found in `expenses.json`: either text that is not valid
JSON, or a JSON document. -/
inductive FileContent : Type where
  | invalidJson
  | json (j : Json)

/-- Result of `fs::read_to_string("expenses.json")`. -/
inductive FileRead : Type where
  | notFound
  | readError
  | ok (content : FileContent)

/-- `serde_json::from_str` applied to the raw file text. -/
def parseExpenses : FileContent → Option (List Expense)
  | .invalidJson => none
  | .json j => expensesFromJson j

/-- `load_expenses`: missing file, unreadable file, and unparsable
content all fall back to the empty collection. -/
def load_expenses : FileRead → List Expense
  | .ok c => (parseExpenses c).getD []
  | .notFound => []
  | .readError => []

/-- The month/year test of `monthly_summary`, in the source's order:
`expense.timestamp.month() == current_month && expense.timestamp.year()
== current_year`. -/
def inMonth (now : DateTime) (e : Expense) : Bool :=
  (e.timestamp.month == now.month) && (e.timestamp.year == now.year)

/-- Lookup in the category-totals map (`HashMap` keyed by `String`). -/
def lookupA (c : String) : List (String × FVal) → Option FVal
  | [] => none
  | (k, v) :: t => if k = c then some v else lookupA c t

/-- `category_totals.entry(cat).or_insert(0.0) += amount`. -/
def updateTotals : List (String × FVal) → String → FVal → List (String × FVal)
  | [], c, a => [(c, FVal.add (FVal.num 0) a)]
  | (k, v) :: t, c, a =>
    if k = c then (k, FVal.add v a) :: t else (k, v) :: updateTotals t c a

/-- `monthly_summary` (menu option 4), given the reference time `now`:
one pass over the collection accumulates, for the expenses dated in the
same month and year as `now`, the per-category totals map and the grand
total; reports "no expenses this month" (`none`) exactly when the totals
map stayed empty. -/
def monthly_summary (now : DateTime) (expenses : List Expense) :
    Option (List (String × FVal) × FVal) :=
  let p := expenses.foldl
    (fun acc e =>
      if inMonth now e then
        (updateTotals acc.1 e.category e.amount, FVal.add acc.2 e.amount)
      else acc)
    ([], FVal.num 0)
  if p.1.isEmpty then none else some p

/-- A concrete instant used by the concrete collections below. -/
def dtOct : DateTime := ⟨2025, 10, 100⟩

/-- A concrete instant in the previous month. -/
def dtSep : DateTime := ⟨2025, 9, 40⟩

/-- Concrete expense: 10 in "Food". -/
def expA : Expense := ⟨.num 10, "Food", dtOct⟩

/-- Concrete expense: 20 in "Transport". -/
def expB : Expense := ⟨.num 20, "Transport", dtOct⟩

/-- Concrete expense: 30 in "Rent". -/
def expC : Expense := ⟨.num 30, "Rent", dtOct⟩

/-- C1: on a 3-element collection the delete operation accepts 1 (and
removes the first element) but, against the claimed `[1, length]`
contract, it rejects index 3 (= length, which should remove the last
element) while index 0 passes its bounds check and panics on the
`usize` underflow of `index - 1` instead of being cleanly rejected;
index 4 (= length + 1) is rejected as the claim says. -/
theorem delete_expenses_off_by_one :
    delete_expenses [expA, expB, expC] 1 = .deleted [expB, expC]
    ∧ delete_expenses [expA, expB, expC] 3 = .invalidIndex
    ∧ delete_expenses [expA, expB, expC] 0 = .panicked
    ∧ delete_expenses [expA, expB, expC] 4 = .invalidIndex := by
  refine ⟨?_, rfl, rfl, rfl⟩
  rfl

/-- C3: `load_expenses` never fails: a missing file, any other read
error, and content that does not parse as a JSON array of `Expense`
records all produce the empty collection. -/
theorem load_expenses_never_fails :
    load_expenses .notFound = []
    ∧ load_expenses .readError = []
    ∧ ∀ c, parseExpenses c = none → load_expenses (.ok c) = [] := by
  refine ⟨rfl, rfl, fun c h => ?_⟩
  simp [load_expenses, h]

/-- Witness for C3: text that is not JSON, and a JSON document that is
not an array of expenses, both load as the empty collection. -/
theorem load_expenses_never_fails_witness :
    load_expenses (.ok .invalidJson) = []
    ∧ load_expenses (.ok (.json (.str "oops"))) = [] :=
  ⟨load_expenses_never_fails.2.2 _ rfl, load_expenses_never_fails.2.2 _ rfl⟩

/-- C9: `sort_expenses` on any input other than the five recognized keys
reports an invalid choice and returns the collection unchanged. -/
theorem sort_expenses_unrecognized_noop (input : String) (l : List Expense)
    (h : input ∉ (["1", "2", "3", "4", "5"] : List String)) :
    sort_expenses input l = some l := by
  simp only [List.mem_cons, List.not_mem_nil, or_false, not_or] at h
  obtain ⟨h1, h2, h3, h4, h5⟩ := h
  simp [sort_expenses, h1, h2, h3, h4, h5]

/-- Witness for C9 at the concrete key "6". -/
theorem sort_expenses_unrecognized_noop_witness :
    sort_expenses "6" [expA, expB] = some [expA, expB] :=
  sort_expenses_unrecognized_noop "6" [expA, expB] (by decide)

/-- C4: after `set_budget c L`, an `add_expense` to category `c` whose
resulting case-sensitive category sum (new expense included) is the
numeric value `s` appends the expense unconditionally — the add is never
rejected — and emits the budget-exceeded notice exactly when `s` is
strictly greater than `L`; a sum equal to `L` does not trigger it. -/
theorem add_expense_budget_notice (t : ExpenseTracker) (c : String) (L : ℚ)
    (amt : FVal) (now : DateTime) (s : ℚ)
    (hsum : sumFVals (((t.expenses ++ ([⟨amt, c, now⟩] : List Expense)).filter
      (fun e => e.category == c)).map fun e => e.amount) = .num s) :
    (add_expense (set_budget t c (.num L)) c amt now).1.expenses
      = t.expenses ++ [⟨amt, c, now⟩]
    ∧ ((add_expense (set_budget t c (.num L)) c amt now).2 = true ↔ L < s) := by
  constructor
  · rfl
  · simp only [add_expense, set_budget, if_pos rfl]
    rw [hsum]
    simp [FVal.gt]

/-- Witness for C4, the spec's example: with a budget of 100 for "Food",
adds totaling 120 trigger the notice on the second add, while adds
totaling exactly 100 do not. -/
theorem add_expense_budget_notice_witness :
    (add_expense (set_budget ⟨[⟨.num 70, "Food", dtOct⟩], fun _ => none⟩
      "Food" (.num 100)) "Food" (.num 50) dtOct).2 = true
    ∧ (add_expense (set_budget ⟨[⟨.num 30, "Food", dtOct⟩], fun _ => none⟩
      "Food" (.num 100)) "Food" (.num 70) dtOct).2 = false := by
  constructor
  · exact ((add_expense_budget_notice ⟨[⟨.num 70, "Food", dtOct⟩], fun _ => none⟩
      "Food" 100 (.num 50) dtOct 120
        (by norm_num [sumFVals, List.filter, FVal.add])).2).mpr (by norm_num)
  · have h := (add_expense_budget_notice ⟨[⟨.num 30, "Food", dtOct⟩], fun _ => none⟩
      "Food" 100 (.num 70) dtOct 100
        (by norm_num [sumFVals, List.filter, FVal.add])).2
    exact Bool.eq_false_iff.mpr fun hb => lt_irrefl (100 : ℚ) (h.mp hb)

/-- C5: `filter_expenses` returns exactly the order-preserving
subsequence of expenses whose category matches the query ignoring ASCII
case (it is a sublist, every returned entry matches, and every matching
entry is returned with its multiplicity); the no-match report is emitted
precisely when no entry matches, and its message is distinct from the
"no expenses recorded" message of the empty collection. -/
theorem filter_expenses_exact (cat : String) (l : List Expense) :
    (filter_expenses cat l).Sublist l
    ∧ (∀ e ∈ filter_expenses cat l, eqIgnoreAsciiCase e.category cat = true)
    ∧ (∀ e : Expense, (filter_expenses cat l).count e
        = if eqIgnoreAsciiCase e.category cat then l.count e else 0)
    ∧ (filterReport cat l = .noMatch (filterEmptyMsg cat)
        ↔ ∀ e ∈ l, eqIgnoreAsciiCase e.category cat = false)
    ∧ filterEmptyMsg cat ≠ viewEmptyMsg := by
  refine ⟨List.filter_sublist l, ?_, ?_, ?_, ?_⟩
  · intro e he
    unfold filter_expenses at he
    exact (List.mem_filter.mp he).2
  · intro e
    unfold filter_expenses
    by_cases hp : eqIgnoreAsciiCase e.category cat = true
    · rw [if_pos hp]
      exact List.count_filter hp
    · rw [if_neg hp]
      refine List.count_eq_zero.mpr fun hmem => hp (List.mem_filter.mp hmem).2
  · unfold filterReport
    by_cases hE : (filter_expenses cat l).isEmpty
    · rw [if_pos hE]
      have : filter_expenses cat l = [] := List.isEmpty_iff.mp hE
      unfold filter_expenses at this
      rw [List.filter_eq_nil_iff] at this
      refine iff_of_true rfl fun e he => ?_
      have hb := this e he
      rwa [Bool.not_eq_true] at hb
    · rw [if_neg hE]
      have : ¬filter_expenses cat l = [] := fun h => hE (List.isEmpty_iff.mpr h)
      unfold filter_expenses at this
      refine iff_of_false (fun h => FilterReport.noConfusion h) fun hall => ?_
      exact this (List.filter_eq_nil_iff.mpr fun e he =>
        by rw [hall e he]; exact Bool.false_ne_true)
  · intro h
    have hlen := congrArg String.length h
    rw [filterEmptyMsg, String.length_append] at hlen
    have h1 : ("No expenses found for category: " : String).length = 32 := by decide
    have h2 : viewEmptyMsg.length = 25 := by decide
    rw [h1, h2] at hlen
    omega

/-- Concrete expense: 5 in "Food". -/
def eFood : Expense := ⟨.num 5, "Food", dtOct⟩

/-- Concrete expense: 6 in "FOOD". -/
def eFOOD : Expense := ⟨.num 6, "FOOD", dtOct⟩

/-- Witness for C5, the spec's example: "Food" matches the query "food"
ignoring case, and the query "Gadgets" on a non-empty collection yields
the distinct no-match report. -/
theorem filter_expenses_exact_witness :
    eqIgnoreAsciiCase eFood.category "food" = true
    ∧ filterReport "Gadgets" [eFood, eFOOD, expB]
        = .noMatch (filterEmptyMsg "Gadgets") :=
  ⟨(filter_expenses_exact "food" [eFood, eFOOD, expB]).2.1 eFood (by decide),
   ((filter_expenses_exact "Gadgets" [eFood, eFOOD, expB]).2.2.2.1).mpr (by decide)⟩

theorem dt_roundtrip (dt : DateTime) : dtFromJson (dtToJson dt) = some dt := by
  simp [dtToJson, dtFromJson, qToInt, qToNat]

theorem expense_roundtrip (e : Expense) (h : e.amount.isNan = false) :
    expenseFromJson (expenseToJson e) = some e := by
  obtain ⟨a, cat, ts⟩ := e
  cases a with
  | nan => simp [FVal.isNan] at h
  | num q =>
    simp [expenseToJson, expenseFromJson, amountToJson, amountFromJson,
      dt_roundtrip]

theorem expense_list_roundtrip :
    ∀ l : List Expense, (∀ e ∈ l, e.amount.isNan = false) →
    expenseListFromJson (l.map expenseToJson) = some l := by
  intro l
  induction l with
  | nil => intro _; rfl
  | cons e t ih =>
    intro h
    simp only [List.map_cons, expenseListFromJson,
      expense_roundtrip e (h e (List.mem_cons_self e t)),
      ih fun x hx => h x (List.mem_cons_of_mem e hx)]

/-- C2: for every collection whose amounts are valid numeric values,
saving to JSON and loading back reconstructs the collection exactly —
same length and, record by record, the same amount, category and
timestamp (the loaded list is equal to the original). -/
theorem save_load_roundtrip (l : List Expense)
    (h : ∀ e ∈ l, e.amount.isNan = false) :
    load_expenses (.ok (.json (save_expenses l))) = l := by
  simp [load_expenses, parseExpenses, save_expenses, expensesFromJson,
    expense_list_roundtrip l h]

/-- Witness for C2 on a concrete non-empty collection and on the empty
collection. -/
theorem save_load_roundtrip_witness :
    load_expenses (.ok (.json (save_expenses [eFood, expB, expC])))
      = [eFood, expB, expC]
    ∧ load_expenses (.ok (.json (save_expenses ([] : List Expense)))) = [] :=
  ⟨save_load_roundtrip [eFood, expB, expC] (by decide),
   save_load_roundtrip [] (by decide)⟩

theorem FVal.pcmp_nan_left (b : FVal) : FVal.pcmp .nan b = none := by
  cases b <;> rfl

theorem FVal.pcmp_nan_right (a : FVal) : FVal.pcmp a .nan = none := by
  cases a <;> rfl

theorem FVal.pcmp_of_notNan (a b : FVal) (ha : a.isNan = false)
    (hb : b.isNan = false) : FVal.pcmp a b = some (ocmp a.q b.q) := by
  cases a with
  | nan => simp [FVal.isNan] at ha
  | num qa =>
    cases b with
    | nan => simp [FVal.isNan] at hb
    | num qb => rfl

theorem FVal.eq_nan_of_isNan {a : FVal} (h : a.isNan = true) : a = .nan := by
  cases a with
  | nan => rfl
  | num q => simp [FVal.isNan] at h

/-- C7: when no amount in the collection is NaN, every pairwise
`partial_cmp` of amounts is defined (the `unwrap` cannot fail) and both
amount sorts complete; when a NaN is present and the collection has at
least two elements (so the comparator does run), both amount sorts hit
the fatal `unwrap` panic instead of silently skipping the value. -/
theorem sort_amount_needs_no_nan (l : List Expense) :
    ((∀ e ∈ l, e.amount.isNan = false) →
      (∀ a ∈ l, ∀ b ∈ l, (FVal.pcmp a.amount b.amount).isSome = true)
      ∧ (sort_expenses "1" l).isSome = true
      ∧ (sort_expenses "2" l).isSome = true)
    ∧ (2 ≤ l.length → (∃ e ∈ l, e.amount.isNan = true) →
      sort_expenses "1" l = none ∧ sort_expenses "2" l = none) := by
  constructor
  · intro h
    refine ⟨fun a ha b hb => ?_, ?_, ?_⟩
    · rw [FVal.pcmp_of_notNan _ _ (h a ha) (h b hb)]
      rfl
    · have hs : sort_expenses "1" l = isortOpt cmpAmountAsc l := by
        simp [sort_expenses]
      rw [hs, isortOpt_eq_isortT cmpAmountAsc
        (fun x y => ocmp x.amount.q y.amount.q) l
        fun x hx y hy => FVal.pcmp_of_notNan _ _ (h x hx) (h y hy)]
      rfl
    · have hs : sort_expenses "2" l = isortOpt cmpAmountDesc l := by
        simp [sort_expenses]
      rw [hs, isortOpt_eq_isortT cmpAmountDesc
        (fun x y => ocmp y.amount.q x.amount.q) l
        fun x hx y hy => FVal.pcmp_of_notNan _ _ (h y hy) (h x hx)]
      rfl
  · intro hlen hex
    obtain ⟨x, hx, hnan⟩ := hex
    have hxa : x.amount = .nan := FVal.eq_nan_of_isNan hnan
    constructor
    · have hs : sort_expenses "1" l = isortOpt cmpAmountAsc l := by
        simp [sort_expenses]
      rw [hs]
      exact isortOpt_none_of_bad cmpAmountAsc l hlen ⟨x, hx,
        fun y => by simp [cmpAmountAsc, hxa, FVal.pcmp_nan_left],
        fun y => by simp [cmpAmountAsc, hxa, FVal.pcmp_nan_right]⟩
    · have hs : sort_expenses "2" l = isortOpt cmpAmountDesc l := by
        simp [sort_expenses]
      rw [hs]
      exact isortOpt_none_of_bad cmpAmountDesc l hlen ⟨x, hx,
        fun y => by simp [cmpAmountDesc, hxa, FVal.pcmp_nan_right],
        fun y => by simp [cmpAmountDesc, hxa, FVal.pcmp_nan_left]⟩

/-- A concrete expense with a NaN amount. -/
def eNaN : Expense := ⟨.nan, "X", dtOct⟩

/-- Witness for C7: a NaN-free two-element sort completes; with a NaN
present both amount sorts are fatal. -/
theorem sort_amount_needs_no_nan_witness :
    (sort_expenses "1" [eFood, expB]).isSome = true
    ∧ sort_expenses "1" [eNaN, eFood] = none
    ∧ sort_expenses "2" [eNaN, eFood] = none := by
  refine ⟨((sort_amount_needs_no_nan [eFood, expB]).1 (by decide)).2.1, ?_, ?_⟩
  · exact ((sort_amount_needs_no_nan [eNaN, eFood]).2 (by decide)
      ⟨eNaN, by decide, rfl⟩).1
  · exact ((sort_amount_needs_no_nan [eNaN, eFood]).2 (by decide)
      ⟨eNaN, by decide, rfl⟩).2

theorem FVal.num_q_of_notNan {a : FVal} (h : a.isNan = false) :
    FVal.num a.q = a := by
  cases a with
  | nan => simp [FVal.isNan] at h
  | num q => rfl

/-- C8: on a collection with pairwise distinct amounts, whenever the
ascending amount sort produces an order, running the descending amount
sort on that result yields exactly its reverse. -/
theorem sort_asc_then_desc_reverses (l la : List Expense)
    (hd : l.Pairwise fun a b => a.amount ≠ b.amount)
    (h1 : sort_expenses "1" l = some la) :
    sort_expenses "2" la = some la.reverse := by
  have h1' : isortOpt cmpAmountAsc l = some la := by
    simpa [sort_expenses] using h1
  have hgoal : sort_expenses "2" la = isortOpt cmpAmountDesc la := by
    simp [sort_expenses]
  rw [hgoal]
  by_cases hnan : ∃ e ∈ l, e.amount.isNan = true
  · have hshort : ¬2 ≤ l.length := by
      intro h2
      obtain ⟨x, hx, hnanx⟩ := hnan
      have hxa := FVal.eq_nan_of_isNan hnanx
      rw [isortOpt_none_of_bad cmpAmountAsc l h2 ⟨x, hx,
        fun y => by simp [cmpAmountAsc, hxa, FVal.pcmp_nan_left],
        fun y => by simp [cmpAmountAsc, hxa, FVal.pcmp_nan_right]⟩] at h1'
      exact Option.noConfusion h1'
    cases l with
    | nil =>
      simp only [isortOpt, Option.some_inj] at h1'
      rw [← h1']
      rfl
    | cons x t =>
      cases t with
      | nil =>
        simp only [isortOpt, insertOpt, Option.some_bind, Option.some_inj] at h1'
        rw [← h1']
        rfl
      | cons y t2 =>
        exfalso
        apply hshort
        simp only [List.length_cons]
        omega
  · have hno : ∀ e ∈ l, e.amount.isNan = false := by
      push_neg at hnan
      intro e he
      exact Bool.eq_false_iff.mpr (hnan e he)
    have Hflip : ∀ x y : Expense,
        ocmp x.amount.q y.amount.q = .gt → ocmp y.amount.q x.amount.q ≠ .gt :=
      fun x y hxy hyx => lt_asymm (ocmp_eq_gt.mp hxy) (ocmp_eq_gt.mp hyx)
    have Htrans : ∀ x y z : Expense,
        ocmp x.amount.q y.amount.q ≠ .gt → ocmp y.amount.q z.amount.q ≠ .gt →
        ocmp x.amount.q z.amount.q ≠ .gt :=
      fun x y z hxy hyz =>
        ocmp_ne_gt.mpr (le_trans (ocmp_ne_gt.mp hxy) (ocmp_ne_gt.mp hyz))
    rw [isortOpt_eq_isortT cmpAmountAsc
      (fun x y => ocmp x.amount.q y.amount.q) l
      fun x hx y hy => FVal.pcmp_of_notNan _ _ (hno x hx) (hno y hy)] at h1'
    have hla : la = isortT (fun x y => ocmp x.amount.q y.amount.q) l :=
      (Option.some_inj.mp h1').symm
    have hperm : la.Perm l := hla ▸ isortT_perm _ l
    have hnola : ∀ e ∈ la, e.amount.isNan = false :=
      fun e he => hno e (hperm.mem_iff.mp he)
    have hsorted : la.Pairwise fun x y => ocmp x.amount.q y.amount.q ≠ .gt :=
      hla ▸ isortT_pairwise _ Hflip Htrans l
    have hdla : la.Pairwise fun a b => a.amount ≠ b.amount :=
      (hperm.pairwise_iff fun h => h.symm).mpr hd
    have hstrict : la.Pairwise fun x y => ocmp y.amount.q x.amount.q = .gt := by
      refine (hsorted.and hdla).imp_of_mem ?_
      intro a b ha hb hr
      refine ocmp_eq_gt.mpr (lt_of_le_of_ne (ocmp_ne_gt.mp hr.1) fun heq => ?_)
      exact hr.2 (by
        rw [← FVal.num_q_of_notNan (hnola a ha), ← FVal.num_q_of_notNan (hnola b hb), heq])
    rw [isortOpt_eq_isortT cmpAmountDesc
      (fun x y => ocmp y.amount.q x.amount.q) la
      fun x hx y hy => FVal.pcmp_of_notNan _ _ (hnola y hy) (hnola x hx)]
    rw [isortT_rev_of_strict _ la hstrict]

/-- Witness for C8 on a concrete two-element collection with distinct
amounts. -/
theorem sort_asc_then_desc_reverses_witness :
    sort_expenses "2" [eFood, expB] = some ([eFood, expB].reverse) :=
  sort_asc_then_desc_reverses [expB, eFood] [eFood, expB] (by decide) (by decide)

theorem ocmp_swap {β : Type} [LinearOrder β] (a b : β) :
    ocmp a b = (ocmp b a).swap := by
  rcases lt_trichotomy a b with h | h | h
  · rw [ocmp_eq_lt.mpr h, ocmp_eq_gt.mpr h]
    rfl
  · rw [ocmp_eq_eq.mpr h, ocmp_eq_eq.mpr h.symm]
    rfl
  · rw [ocmp_eq_gt.mpr h, ocmp_eq_lt.mpr h]
    rfl

theorem strCmpAux_swap : ∀ a b : List Char,
    strCmpAux a b = (strCmpAux b a).swap := by
  intro a
  induction a with
  | nil => intro b; cases b <;> rfl
  | cons x xs ih =>
    intro b
    cases b with
    | nil => rfl
    | cons y ys =>
      simp only [strCmpAux]
      rw [ocmp_swap x.toNat y.toNat]
      cases hc : ocmp y.toNat x.toNat <;> simp [Ordering.swap, ih ys]

theorem strCmpAux_le_trans : ∀ a b c : List Char,
    strCmpAux a b ≠ .gt → strCmpAux b c ≠ .gt → strCmpAux a c ≠ .gt := by
  intro a
  induction a with
  | nil =>
    intro b c _ _
    cases c <;> simp [strCmpAux]
  | cons x xs ih =>
    intro b c h1 h2
    cases b with
    | nil => exact absurd rfl h1
    | cons y ys =>
      cases c with
      | nil => exact absurd rfl h2
      | cons z zs =>
        simp only [strCmpAux] at h1 h2 ⊢
        cases hxy : ocmp x.toNat y.toNat with
        | gt =>
          rw [hxy] at h1
          exact absurd rfl h1
        | lt =>
          cases hyz : ocmp y.toNat z.toNat with
          | gt =>
            rw [hyz] at h2
            exact absurd rfl h2
          | lt =>
            rw [ocmp_eq_lt.mpr (lt_trans (ocmp_eq_lt.mp hxy) (ocmp_eq_lt.mp hyz))]
            simp
          | eq =>
            rw [ocmp_eq_lt.mpr (ocmp_eq_eq.mp hyz ▸ ocmp_eq_lt.mp hxy)]
            simp
        | eq =>
          have hx := ocmp_eq_eq.mp hxy
          rw [hxy] at h1
          cases hyz : ocmp y.toNat z.toNat with
          | gt =>
            rw [hyz] at h2
            exact absurd rfl h2
          | lt =>
            rw [ocmp_eq_lt.mpr (hx ▸ ocmp_eq_lt.mp hyz)]
            simp
          | eq =>
            rw [hyz] at h2
            rw [ocmp_eq_eq.mpr (hx.trans (ocmp_eq_eq.mp hyz))]
            exact ih ys zs h1 h2

/-- Does the string begin with an ASCII uppercase letter? -/
def startsAsciiUpper (s : String) : Bool :=
  match s.data with
  | [] => false
  | c :: _ => decide (65 ≤ c.toNat ∧ c.toNat ≤ 90)

/-- Does the string begin with an ASCII lowercase letter? -/
def startsAsciiLower (s : String) : Bool :=
  match s.data with
  | [] => false
  | c :: _ => decide (97 ≤ c.toNat ∧ c.toNat ≤ 122)

theorem strCmp_gt_of_lower_upper (s t : String)
    (hs : startsAsciiLower s = true) (ht : startsAsciiUpper t = true) :
    strCmp s t = .gt := by
  unfold startsAsciiLower at hs
  unfold startsAsciiUpper at ht
  unfold strCmp
  cases hsd : s.data with
  | nil => rw [hsd] at hs; simp at hs
  | cons c cs =>
    cases htd : t.data with
    | nil => rw [htd] at ht; simp at ht
    | cons d ds =>
      rw [hsd] at hs
      rw [htd] at ht
      simp only [decide_eq_true_eq] at hs ht
      have hgt : ocmp c.toNat d.toNat = .gt := ocmp_eq_gt.mpr (by omega)
      simp [strCmpAux, hgt]

/-- C10: the category sort orders the collection by the case-sensitive
byte-wise lexicographic comparison of category strings: the output is a
permutation of the input, sorted under `strCmp`, and consequently no
entry whose category begins with an ASCII lowercase letter ever precedes
one whose category begins with an ASCII uppercase letter. -/
theorem sort_category_bytewise_lex (l : List Expense) :
    ∃ la, sort_expenses "3" l = some la
    ∧ la.Perm l
    ∧ la.Pairwise (fun a b => strCmp a.category b.category ≠ .gt)
    ∧ la.Pairwise (fun a b =>
        ¬(startsAsciiLower a.category = true ∧ startsAsciiUpper b.category = true)) := by
  have hs : sort_expenses "3" l = isortOpt cmpCategory l := by
    simp [sort_expenses]
  have heq : isortOpt cmpCategory l
      = some (isortT (fun a b : Expense => strCmp a.category b.category) l) :=
    isortOpt_eq_isortT _ _ l fun x _ y _ => rfl
  have Hflip : ∀ x y : Expense, strCmp x.category y.category = .gt →
      strCmp y.category x.category ≠ .gt := by
    intro x y hxy hyx
    have hsw : strCmp x.category y.category
        = (strCmp y.category x.category).swap := strCmpAux_swap _ _
    rw [hxy, hyx] at hsw
    exact Ordering.noConfusion hsw
  have Htrans : ∀ x y z : Expense, strCmp x.category y.category ≠ .gt →
      strCmp y.category z.category ≠ .gt → strCmp x.category z.category ≠ .gt :=
    fun x y z => strCmpAux_le_trans _ _ _
  have hsorted := isortT_pairwise
    (fun a b : Expense => strCmp a.category b.category) Hflip Htrans l
  refine ⟨_, hs.trans heq, isortT_perm _ l, hsorted, ?_⟩
  exact hsorted.imp fun hr hc => hr (strCmp_gt_of_lower_upper _ _ hc.1 hc.2)

theorem foldl_filter_cond {α β : Type} (p : α → Bool) (f : β → α → β) :
    ∀ (l : List α) (init : β),
    l.foldl (fun acc a => if p a then f acc a else acc) init
      = (l.filter p).foldl f init := by
  intro l
  induction l with
  | nil => intro _; rfl
  | cons a t ih =>
    intro init
    by_cases hp : p a = true
    · simp [List.filter_cons, hp, ih]
    · simp only [Bool.not_eq_true] at hp
      simp [List.filter_cons, hp, ih]

theorem foldl_prod_split {α β γ : Type} (f : β → α → β) (g : γ → α → γ) :
    ∀ (l : List α) (b : β) (c : γ),
    l.foldl (fun acc a => (f acc.1 a, g acc.2 a)) (b, c)
      = (l.foldl f b, l.foldl g c) := by
  intro l
  induction l with
  | nil => intros; rfl
  | cons a t ih => intro b c; simp [ih]

theorem lookupA_updateTotals (c k : String) (a : FVal) :
    ∀ m : List (String × FVal),
    lookupA c (updateTotals m k a)
      = if k = c then some (FVal.add ((lookupA c m).getD (FVal.num 0)) a)
        else lookupA c m := by
  intro m
  induction m with
  | nil => simp [updateTotals, lookupA]
  | cons kv t ih =>
    obtain ⟨k', v⟩ := kv
    simp only [updateTotals]
    by_cases hkk : k' = k
    · subst hkk
      simp only [if_pos rfl, lookupA]
      by_cases hkc : k' = c
      · simp [lookupA, hkc]
      · simp [lookupA, hkc]
    · rw [if_neg hkk]
      simp only [lookupA]
      by_cases hkc : k' = c
      · have hknc : ¬k = c := fun h => hkk (hkc.trans h.symm)
        simp [lookupA, hkc, hknc]
      · simp [lookupA, hkc, ih]

theorem lookupA_fold_updateTotals (c : String) :
    ∀ (sel : List Expense) (m : List (String × FVal)),
    lookupA c (sel.foldl (fun acc e => updateTotals acc e.category e.amount) m)
      = if sel.any (fun e => e.category == c) then
          some (((sel.filter fun e => e.category == c).map fun e => e.amount).foldl
            FVal.add ((lookupA c m).getD (FVal.num 0)))
        else lookupA c m := by
  intro sel
  induction sel with
  | nil => intro m; simp
  | cons e rest ih =>
    intro m
    simp only [List.foldl_cons]
    rw [ih (updateTotals m e.category e.amount),
      lookupA_updateTotals c e.category e.amount m]
    by_cases hc : e.category = c
    · have hcb : (e.category == c) = true := beq_iff_eq.mpr hc
      rw [if_pos hc]
      simp only [List.any_cons, hcb, Bool.true_or, if_true,
        List.filter_cons, List.map_cons, List.foldl_cons]
      by_cases hrest : rest.any (fun e => e.category == c) = true
      · rw [if_pos hrest]
        simp
      · simp only [Bool.not_eq_true] at hrest
        rw [if_neg (by rw [hrest]; exact Bool.false_ne_true)]
        have hfil : rest.filter (fun e => e.category == c) = [] :=
          List.filter_eq_nil_iff.mpr (List.any_eq_false.mp hrest)
        simp [hfil]
    · have hcb : (e.category == c) = false := beq_eq_false_iff_ne.mpr hc
      rw [if_neg hc]
      simp only [List.any_cons, hcb, Bool.false_or, List.filter_cons]
      simp [hcb]

theorem updateTotals_ne_nil (m : List (String × FVal)) (k : String) (a : FVal) :
    updateTotals m k a ≠ [] := by
  cases m with
  | nil => simp [updateTotals]
  | cons kv t =>
    obtain ⟨k', v⟩ := kv
    simp only [updateTotals]
    split_ifs <;> simp

theorem fold_updateTotals_ne_nil :
    ∀ (sel : List Expense) (m : List (String × FVal)), m ≠ [] →
    sel.foldl (fun acc e => updateTotals acc e.category e.amount) m ≠ [] := by
  intro sel
  induction sel with
  | nil => intro m h; exact h
  | cons e rest ih =>
    intro m _
    exact ih _ (updateTotals_ne_nil m e.category e.amount)

theorem fold_updateTotals_nil_iff (sel : List Expense) :
    sel.foldl (fun acc e => updateTotals acc e.category e.amount) [] = []
      ↔ sel = [] := by
  constructor
  · intro h
    cases hs : sel with
    | nil => rfl
    | cons e rest =>
      rw [hs] at h
      simp only [List.foldl_cons] at h
      exact absurd h (fold_updateTotals_ne_nil rest _
        (updateTotals_ne_nil [] e.category e.amount))
  · intro h
    rw [h]
    rfl

/-- C6: `monthly_summary` selects exactly the expenses sharing calendar
month and year with the reference time; it reports "no expenses this
month" (`none`) precisely when that subset is empty, and otherwise
returns the grand total of the subset's amounts together with a
category-totals map whose lookup at any category is the sum of that
category's amounts in the subset (and is absent for categories not in
the subset). -/
theorem monthly_summary_spec (now : DateTime) (expenses : List Expense) :
    (monthly_summary now expenses = none
      ↔ expenses.filter (inMonth now) = [])
    ∧ ∀ m t, monthly_summary now expenses = some (m, t) →
        t = sumFVals ((expenses.filter (inMonth now)).map fun e => e.amount)
        ∧ ∀ c, lookupA c m
            = if (expenses.filter (inMonth now)).any (fun e => e.category == c)
              then some (sumFVals (((expenses.filter (inMonth now)).filter
                fun e => e.category == c).map fun e => e.amount))
              else none := by
  have hkey :
      expenses.foldl
        (fun acc e =>
          if inMonth now e then
            (updateTotals acc.1 e.category e.amount, FVal.add acc.2 e.amount)
          else acc) (([] : List (String × FVal)), FVal.num 0)
      = ((expenses.filter (inMonth now)).foldl
            (fun acc e => updateTotals acc e.category e.amount) [],
         (expenses.filter (inMonth now)).foldl
            (fun acc e => FVal.add acc e.amount) (FVal.num 0)) := by
    rw [foldl_filter_cond (inMonth now)
      (fun acc e =>
        (updateTotals acc.1 e.category e.amount, FVal.add acc.2 e.amount))
      expenses ([], FVal.num 0)]
    exact foldl_prod_split (fun acc e => updateTotals acc e.category e.amount)
      (fun acc e => FVal.add acc e.amount)
      (expenses.filter (inMonth now)) [] (FVal.num 0)
  have hsum :
      (expenses.filter (inMonth now)).foldl
        (fun acc e => FVal.add acc e.amount) (FVal.num 0)
      = sumFVals ((expenses.filter (inMonth now)).map fun e => e.amount) := by
    rw [sumFVals, List.foldl_map]
  simp only [monthly_summary, hkey]
  constructor
  · constructor
    · intro h
      by_contra hsel
      have hMne : (expenses.filter (inMonth now)).foldl
          (fun acc e => updateTotals acc e.category e.amount) [] ≠ [] :=
        fun hM => hsel ((fold_updateTotals_nil_iff _).mp hM)
      rw [if_neg (by simpa [List.isEmpty_iff] using hMne)] at h
      exact Option.noConfusion h
    · intro hsel
      rw [if_pos (by rw [hsel]; rfl)]
  · intro m t h
    by_cases hsel : expenses.filter (inMonth now) = []
    · rw [if_pos (by rw [hsel]; rfl)] at h
      exact Option.noConfusion h
    · have hMne : (expenses.filter (inMonth now)).foldl
          (fun acc e => updateTotals acc e.category e.amount) [] ≠ [] :=
        fun hM => hsel ((fold_updateTotals_nil_iff _).mp hM)
      rw [if_neg (by simpa [List.isEmpty_iff] using hMne)] at h
      have hpair := Option.some_inj.mp h
      have hm : m = (expenses.filter (inMonth now)).foldl
          (fun acc e => updateTotals acc e.category e.amount) [] :=
        (congrArg Prod.fst hpair).symm
      have ht : t = (expenses.filter (inMonth now)).foldl
          (fun acc e => FVal.add acc e.amount) (FVal.num 0) :=
        (congrArg Prod.snd hpair).symm
      constructor
      · rw [ht, hsum]
      · intro c
        rw [hm, lookupA_fold_updateTotals c _ []]
        simp [lookupA, sumFVals]

/-- Witness for C6, the spec's example: with one 50.00 "Food" expense in
the reference month and one expense in the previous month, the grand
total is the sum over just the in-month subset, and a collection whose
only expense is from last month reports "no expenses this month". -/
theorem monthly_summary_spec_witness :
    FVal.add (FVal.num 0) (FVal.num 50)
      = sumFVals ((([⟨.num 50, "Food", dtOct⟩, ⟨.num 20, "Food", dtSep⟩]
          : List Expense).filter (inMonth dtOct)).map fun e => e.amount)
    ∧ monthly_summary dtOct [(⟨.num 20, "Food", dtSep⟩ : Expense)] = none :=
  ⟨((monthly_summary_spec dtOct
      [⟨.num 50, "Food", dtOct⟩, ⟨.num 20, "Food", dtSep⟩]).2 _ _ rfl).1,
   (monthly_summary_spec dtOct [⟨.num 20, "Food", dtSep⟩]).1.mpr rfl⟩
